import Mathlib

/-!
Verification of the statement-line parser in `parse_statement.py`.

The development shallowly embeds the program: strings are `List Char`,
Python exceptions are `Option`/`Except` failure values, and the regular
expression

  (?P<date>\d{2}/\d{2}/\d{4})\s+(?P<description>.+?)\s+
  (?P<cashback_percentage>-?\d+%)\s+\$(?P<cashback_amount>-?[\d\.]+)\s+
  \$(?P<total>-?[\d\.]+)

used via `pattern.match(line)` is embedded as a deterministic matcher
(`patternMatch`) that reproduces Python's backtracking search order:
the `\s+` separators are greedy, the description `.+?` is lazy, and the
choice points are explored in left-to-right priority (an earlier greedy
repetition gives back characters only after every continuation of the
later, lazier choice points has failed).  Character classes are modelled
on their ASCII fragment (`\d` is `0`-`9`, `\s` is the six ASCII
whitespace characters), matching Python's behaviour on ASCII input.
-/

namespace ParseStatement

/-- Model of the regex class `\s` (and of `str.strip()`'s default chars),
restricted to ASCII: space, tab, newline, carriage return, vertical tab,
form feed. -/
def pyIsSpace (c : Char) : Bool :=
  c == ' ' || c == '\t' || c == '\n' || c == '\r' || c == '\x0b' || c == '\x0c'

/-- Model of the regex class `[\d\.]`: a decimal digit or a dot. -/
def isAmtChar (c : Char) : Bool :=
  c.isDigit || c == '.'

/-- One parsed transaction: the five named groups of the pattern in
`parse_billing_data` (the `groupdict()` of a match). -/
structure Transaction where
  date : List Char
  description : List Char
  cashback_percentage : List Char
  cashback_amount : List Char
  total : List Char
deriving DecidableEq, Repr

/-- Maximal nonempty run: the embedding of a greedy `p+` item whose
continuation cannot succeed on a character satisfying `p` (so the greedy
repetition never has to give characters back).  Returns the run and the
remaining input. -/
def parseRun (p : Char → Bool) (s : List Char) : Option (List Char × List Char) :=
  let run := s.takeWhile p
  if run = [] then none else some (run, s.dropWhile p)

/-- Embedding of the `-?` item in `-?\d+%` and `-?[\d\.]+`: the optional
sign is taken greedily.  Both follow-up classes reject `-`, so if the
branch that consumes `-` fails, the branch that skips it fails as well;
committing to the sign is therefore faithful to the backtracking search. -/
def parseOptNeg (s : List Char) : List Char × List Char :=
  match s with
  | c :: rest => if c = '-' then (['-'], rest) else ([], s)
  | [] => ([], [])

/-- Embedding of `-?\d+%` (the `cashback_percentage` group): optional
sign, maximal nonempty digit run, then a literal `%`.  A shorter digit
run would put a digit where `%` is required, so the greedy run is
committed. -/
def parsePct (s : List Char) : Option (List Char × List Char) :=
  let pn := parseOptNeg s
  match parseRun Char.isDigit pn.2 with
  | none => none
  | some (ds, r) =>
    match r with
    | c :: r2 => if c = '%' then some (pn.1 ++ ds ++ ['%'], r2) else none
    | [] => none

/-- Embedding of `-?[\d\.]+` (the `cashback_amount` and `total` groups):
optional sign then maximal nonempty run of digits and dots. -/
def parseAmtTok (s : List Char) : Option (List Char × List Char) :=
  let pn := parseOptNeg s
  (parseRun isAmtChar pn.2).map (fun pr => (pn.1 ++ pr.1, pr.2))

/-- Embedding of the literal `\$` in the pattern. -/
def parseDollar (s : List Char) : Option (List Char) :=
  match s with
  | c :: rest => if c = '$' then some rest else none
  | [] => none

/-- Embedding of the part of the pattern that follows the description:
`\s+ -?\d+% \s+ \$ -?[\d\.]+ \s+ \$ -?[\d\.]+`.  Every `\s+` here is
followed by a character its continuation rejects (`-`, a digit, or `$`),
and each amount run is followed by a space or by the end of the pattern,
so the whole suffix is deterministic: it succeeds on a given input iff
any backtracking exploration would.  Returns the captures of the
`cashback_percentage`, `cashback_amount` and `total` groups. -/
def parseAfterDesc (s : List Char) : Option (List Char × List Char × List Char) :=
  (parseRun pyIsSpace s).bind fun w2p =>
  (parsePct w2p.2).bind fun pctp =>
  (parseRun pyIsSpace pctp.2).bind fun w3p =>
  (parseDollar w3p.2).bind fun s4 =>
  (parseAmtTok s4).bind fun amtp =>
  (parseRun pyIsSpace amtp.2).bind fun w4p =>
  (parseDollar w4p.2).bind fun s7 =>
  (parseAmtTok s7).map fun totp => (pctp.1, amtp.1, totp.1)

/-- Embedding of the lazy description `(?P<description>.+?)` followed by
the rest of the pattern: the description grows one character at a time
(shortest first, Python's lazy order) and the deterministic suffix is
retried after each extension.  `.` does not match a newline, so the
search stops if it would have to extend the description across one.
`acc` holds the description characters consumed so far. -/
def findDesc : List Char → List Char → Option (List Char × List Char × List Char × List Char)
  | [], _ => none
  | c :: rest, acc =>
    if c = '\n' then none
    else
      match parseAfterDesc rest with
      | some (pct, amt, tot) => some (acc ++ [c], pct, amt, tot)
      | none => findDesc rest (acc ++ [c])

/-- Embedding of the greedy `\s+` that separates the date from the
description, together with its interaction with the lazy description:
Python first commits the maximal run of `j` spaces and explores every
description; only when that fails does the greedy run give back one
space (which then becomes the first description character), and so on
down to a single space.  `searchDescFrom j s` tries the description
start offsets `j, j-1, ..., 1` into `s` in that order. -/
def searchDescFrom : Nat → List Char → Option (List Char × List Char × List Char × List Char)
  | 0, _ => none
  | j + 1, s =>
    match findDesc (s.drop (j + 1)) [] with
    | some r => some r
    | none => searchDescFrom j s

/-- Embedding of `(?P<date>\d{2}/\d{2}/\d{4})`: two digits, a slash, two
digits, a slash, four digits, at the very start of the input (the
pattern is used through `pattern.match`, which anchors at position 0).
Returns the capture and the remaining input. -/
def parseDate (s : List Char) : Option (List Char × List Char) :=
  match s with
  | m1 :: m2 :: s1 :: d1 :: d2 :: s2 :: y1 :: y2 :: y3 :: y4 :: rest =>
    if m1.isDigit = true ∧ m2.isDigit = true ∧ s1 = '/' ∧ d1.isDigit = true ∧
        d2.isDigit = true ∧ s2 = '/' ∧ y1.isDigit = true ∧ y2.isDigit = true ∧
        y3.isDigit = true ∧ y4.isDigit = true then
      some ([m1, m2, '/', d1, d2, '/', y1, y2, y3, y4], rest)
    else none
  | _ => none

/-- Embedding of `pattern.match(line)` for the full pattern, returning
the `groupdict()` captures of a successful match. -/
def patternMatch (line : List Char) : Option Transaction :=
  match parseDate line with
  | none => none
  | some (d, rest) =>
    let j := (rest.takeWhile pyIsSpace).length
    if j = 0 then none
    else
      match searchDescFrom j rest with
      | none => none
      | some (desc, pct, amt, tot) =>
        some ⟨d, desc, pct, amt, tot⟩

/-- Embedding of Python's `str.split(sep)` for a one-character separator
(used as `data.split("\n")` and `date.split('/')`): all occurrences
split, empty pieces kept, and the empty string yields one empty piece. -/
def splitOnChar (sep : Char) : List Char → List (List Char)
  | [] => [[]]
  | c :: rest =>
    if c = sep then [] :: splitOnChar sep rest
    else
      match splitOnChar sep rest with
      | [] => [[c]]
      | seg :: segs => (c :: seg) :: segs

/-- Embedding of Python's `str.strip()` (no arguments): remove leading
and trailing whitespace. -/
def stripChars (s : List Char) : List Char :=
  ((s.dropWhile pyIsSpace).reverse.dropWhile pyIsSpace).reverse

/-- Embedding of `convert_date_to_iso` (lines 6-17): split on `/`, unpack
into month, day, year, and reassemble as `year-month-day`.  The unpacking
`month, day, year = date.split('/')` raises `ValueError` unless the split
yields exactly three pieces; `none` models that exception. -/
def convert_date_to_iso (date : List Char) : Option (List Char) :=
  match splitOnChar '/' date with
  | [month, day, year] => some (year ++ '-' :: (month ++ '-' :: day))
  | _ => none

/-- One iteration of the loop in `parse_billing_data` (lines 43-51): on a
match, convert the date and append the transaction; on no match, skip the
line.  `none` models an exception propagating out of the loop. -/
def processLine (acc : Option (List Transaction)) (line : List Char) : Option (List Transaction) :=
  match acc with
  | none => none
  | some ts =>
    match patternMatch line with
    | none => some ts
    | some t =>
      match convert_date_to_iso t.date with
      | none => none
      | some iso => some (ts ++ [{ t with date := iso }])

/-- Embedding of `parse_billing_data` (lines 19-53): strip the input,
split it on newlines, and run the pattern over each line in order. -/
def parse_billing_data (data : List Char) : Option (List Transaction) :=
  (splitOnChar '\n' (stripChars data)).foldl processLine (some [])

/-- Python exceptions that the aggregator can raise: an `OSError` from
`open` (carrying the offending path) or the `ValueError` from tuple
unpacking in `convert_date_to_iso`. -/
inductive PyErr where
  | ioError (path : String)
  | valueError
deriving DecidableEq, Repr

instance {ε α : Type} [DecidableEq ε] [DecidableEq α] : DecidableEq (Except ε α) := fun a b =>
  match a, b with
  | Except.error e, Except.error f =>
    if h : e = f then isTrue (by rw [h])
    else isFalse (by intro hh; injection hh with h2; exact h h2)
  | Except.error _, Except.ok _ => isFalse (by intro hh; exact Except.noConfusion hh)
  | Except.ok _, Except.error _ => isFalse (by intro hh; exact Except.noConfusion hh)
  | Except.ok x, Except.ok y =>
    if h : x = y then isTrue (by rw [h])
    else isFalse (by intro hh; injection hh with h2; exact h h2)

/-- Embedding of `read_file` (lines 55-66).  The file system is a map
from paths to contents; a missing or unreadable path makes `open` raise,
modelled as `Except.error`. -/
def read_file (fs : String → Option (List Char)) (path : String) : Except PyErr (List Char) :=
  match fs path with
  | some contents => Except.ok contents
  | none => Except.error (PyErr.ioError path)

/-- Embedding of `parse_multiple_files` (lines 68-85): read and parse the
files in input order, concatenating the transaction lists; the first
exception aborts the remaining files. -/
def parse_multiple_files (fs : String → Option (List Char)) : List String → Except PyErr (List Transaction)
  | [] => Except.ok []
  | path :: rest =>
    match read_file fs path with
    | Except.error e => Except.error e
    | Except.ok raw =>
      match parse_billing_data raw with
      | none => Except.error PyErr.valueError
      | some ts =>
        match parse_multiple_files fs rest with
        | Except.error e => Except.error e
        | Except.ok more => Except.ok (ts ++ more)

/-- Model of argparse's negative-number test (`^-\d+$` or
`^-\d*\.\d+$`): such an argument is treated as a positional value, not an
option, because this parser has no numeric-looking option strings. -/
def negNumberLike (s : String) : Bool :=
  match s.toList with
  | c :: rest =>
    (c == '-') &&
      ((!rest.isEmpty && rest.all Char.isDigit) ||
        (match rest.dropWhile Char.isDigit with
         | c2 :: frac => (c2 == '.') && !frac.isEmpty && frac.all Char.isDigit
         | [] => false))
  | [] => false

/-- Model of argparse's test for whether a command-line token is an
option string: it starts with `-`, is not `-` alone, does not look like a
negative number, and contains no space. -/
def optionLike (s : String) : Bool :=
  match s.toList with
  | c :: rest =>
    (c == '-') && !rest.isEmpty && !negNumberLike s && !(c :: rest).contains ' '
  | [] => false

/-- Model of Python's `argparse` for the configuration built in `main`
(lines 87-99): a single required option `-f`/`--files` with
`nargs='+'` and no positional arguments.  A left-to-right pass:
`-f`/`--files` opens a value run (`collecting`) that absorbs following
non-option tokens and must get at least one; a later occurrence
overrides an earlier one (the default `store` action); non-option
tokens outside a value run, and unknown options, are unrecognized
leftovers.  At the end, a missing required option is reported first,
then unrecognized leftovers; either report makes `parse_args` exit
with status 2. -/
def parseArgsGo (args : List String) (found : Option (List String))
    (collecting : Option (List String)) (sawExtra : Bool) : Except String (List String) :=
  match args with
  | [] =>
    match collecting with
    | some acc =>
      if acc = [] then Except.error "argument -f/--files: expected at least one argument"
      else if sawExtra then Except.error "unrecognized arguments" else Except.ok acc
    | none =>
      match found with
      | none => Except.error "the following arguments are required: -f/--files"
      | some fls => if sawExtra then Except.error "unrecognized arguments" else Except.ok fls
  | a :: rest =>
    if optionLike a then
      match collecting with
      | some acc =>
        if acc = [] then Except.error "argument -f/--files: expected at least one argument"
        else if a = "-f" ∨ a = "--files" then parseArgsGo rest (some acc) (some []) sawExtra
        else if "--files=".toList.isPrefixOf a.toList then
          parseArgsGo rest (some [(a.toList.drop 8).asString]) none sawExtra
        else parseArgsGo rest (some acc) none true
      | none =>
        if a = "-f" ∨ a = "--files" then parseArgsGo rest found (some []) sawExtra
        else if "--files=".toList.isPrefixOf a.toList then
          parseArgsGo rest (some [(a.toList.drop 8).asString]) none sawExtra
        else parseArgsGo rest found none true
    else
      match collecting with
      | some acc => parseArgsGo rest found (some (acc ++ [a])) sawExtra
      | none => parseArgsGo rest found none true

/-- Entry point of the argparse model: `parser.parse_args()` on the given
argument vector. -/
def parseArgsModel (args : List String) : Except String (List String) :=
  parseArgsGo args none none false

/-- Outcome of one run of `main` (lines 87-106): an argparse usage error
(exit status 2, nothing printed), an uncaught exception (exit status 1,
nothing printed — the records are printed only after the whole
aggregation has finished), or a normal exit printing the collected
records. -/
inductive RunOutcome where
  | usageError
  | ioErrorOut (path : String)
  | crash
  | ok (printed : List Transaction)
deriving DecidableEq, Repr

/-- Embedding of `main` (lines 87-106): parse the arguments, aggregate
the files, then print every transaction. -/
def mainModel (fs : String → Option (List Char)) (argv : List String) : RunOutcome :=
  match parseArgsModel argv with
  | Except.error _ => RunOutcome.usageError
  | Except.ok paths =>
    match parse_multiple_files fs paths with
    | Except.error (PyErr.ioError p) => RunOutcome.ioErrorOut p
    | Except.error PyErr.valueError => RunOutcome.crash
    | Except.ok ts => RunOutcome.ok ts

/-- Process exit status of a run outcome: argparse exits with 2, an
uncaught exception exits with 1, a normal run exits with 0. -/
def runExitCode : RunOutcome → Nat
  | RunOutcome.usageError => 2
  | RunOutcome.ioErrorOut _ => 1
  | RunOutcome.crash => 1
  | RunOutcome.ok _ => 0

/-- Records printed to standard output by a run: only a normal exit
prints anything. -/
def printedRecords : RunOutcome → List Transaction
  | RunOutcome.ok ts => ts
  | _ => []

/-- Specification-level token: a nonempty run of digits (`\d+`). -/
def isDigitRun (l : List Char) : Prop :=
  l ≠ [] ∧ ∀ c ∈ l, Char.isDigit c = true

/-- Specification-level token: the date shape `\d{2}/\d{2}/\d{4}`. -/
def isDateTok (l : List Char) : Prop :=
  ∃ m1 m2 d1 d2 y1 y2 y3 y4,
    l = [m1, m2, '/', d1, d2, '/', y1, y2, y3, y4] ∧
    m1.isDigit = true ∧ m2.isDigit = true ∧ d1.isDigit = true ∧ d2.isDigit = true ∧
    y1.isDigit = true ∧ y2.isDigit = true ∧ y3.isDigit = true ∧ y4.isDigit = true

/-- Specification-level token: a nonempty run of whitespace (`\s+`). -/
def isSpaceRun (l : List Char) : Prop :=
  l ≠ [] ∧ ∀ c ∈ l, pyIsSpace c = true

/-- Specification-level token: a description, i.e. a nonempty run of
characters the class `.` accepts (anything but a newline). -/
def isDescTok (l : List Char) : Prop :=
  l ≠ [] ∧ ∀ c ∈ l, c ≠ '\n'

/-- Specification-level token: the percentage shape `-?\d+%`. -/
def isPctTok (l : List Char) : Prop :=
  ∃ neg ds, (neg = [] ∨ neg = ['-']) ∧ isDigitRun ds ∧ l = neg ++ ds ++ ['%']

/-- Specification-level token: the amount shape `-?[\d\.]+`. -/
def isAmtTok (l : List Char) : Prop :=
  ∃ neg ds, (neg = [] ∨ neg = ['-']) ∧ ds ≠ [] ∧ (∀ c ∈ ds, isAmtChar c = true) ∧ l = neg ++ ds

/-- The part of the grammar after the date and the first whitespace run,
with a distinguished description: `s` decomposes as
`DESCRIPTION WS PCT WS $ AMOUNT WS $ AMOUNT` followed by arbitrary
trailing text (the pattern is not anchored at the end). -/
def SuffixMatchWithDesc (s desc : List Char) : Prop :=
  ∃ w2 pct w3 amt w4 tot rest,
    s = desc ++ w2 ++ pct ++ w3 ++ '$' :: (amt ++ w4 ++ '$' :: (tot ++ rest)) ∧
    isDescTok desc ∧ isSpaceRun w2 ∧ isPctTok pct ∧ isSpaceRun w3 ∧
    isAmtTok amt ∧ isSpaceRun w4 ∧ isAmtTok tot

/-- The full fixed-order grammar, matched contiguously from position 0,
with a distinguished description capture:
`DATE WS DESCRIPTION WS PCT WS $ AMOUNT WS $ AMOUNT` then arbitrary
trailing text. -/
def GrammarMatchWithDesc (line desc : List Char) : Prop :=
  ∃ d w1 s,
    line = d ++ w1 ++ s ∧ isDateTok d ∧ isSpaceRun w1 ∧ SuffixMatchWithDesc s desc

/-- The full fixed-order grammar, matched contiguously from position 0,
trailing text allowed. -/
def GrammarMatch (line : List Char) : Prop :=
  ∃ desc, GrammarMatchWithDesc line desc

end ParseStatement

namespace ParseStatement

theorem space_not_digit {c : Char} (h : pyIsSpace c = true) : c.isDigit = false := by
  simp [pyIsSpace] at h
  rcases h with (((((h | h) | h) | h) | h) | h) <;> subst h <;> decide

theorem space_not_amtChar {c : Char} (h : pyIsSpace c = true) : isAmtChar c = false := by
  simp [pyIsSpace] at h
  rcases h with (((((h | h) | h) | h) | h) | h) <;> subst h <;> decide

theorem digit_not_space {c : Char} (h : c.isDigit = true) : pyIsSpace c = false := by
  cases hs : pyIsSpace c
  · rfl
  · rw [space_not_digit hs] at h; cases h

theorem amtChar_not_space {c : Char} (h : isAmtChar c = true) : pyIsSpace c = false := by
  cases hs : pyIsSpace c
  · rfl
  · rw [space_not_amtChar hs] at h; cases h

theorem digit_ne_dash {c : Char} (h : c.isDigit = true) : c ≠ '-' := by
  intro he; rw [he] at h; exact absurd h (by decide)

theorem digit_ne_slash {c : Char} (h : c.isDigit = true) : c ≠ '/' := by
  intro he; rw [he] at h; exact absurd h (by decide)

theorem amtChar_ne_dash {c : Char} (h : isAmtChar c = true) : c ≠ '-' := by
  intro he; rw [he] at h; exact absurd h (by decide)

theorem dropWhile_head_not {p : Char → Bool} :
    ∀ (l : List Char) {c : Char}, (l.dropWhile p).head? = some c → p c = false := by
  intro l
  induction l with
  | nil => intro c h; simp at h
  | cons a t ih =>
    intro c h
    rw [List.dropWhile_cons] at h
    by_cases hp : p a
    · simp only [if_pos hp] at h; exact ih h
    · simp only [if_neg hp, List.head?_cons, Option.some.injEq] at h
      subst h
      simpa using hp

theorem run_split {α : Type} {p : α → Bool} :
    ∀ (a b : List α), (∀ c ∈ a, p c = true) → (∀ c, b.head? = some c → p c = false) →
      (a ++ b).takeWhile p = a ∧ (a ++ b).dropWhile p = b := by
  intro a
  induction a with
  | nil =>
    intro b _ hb
    cases b with
    | nil => simp
    | cons x t => simp [List.takeWhile_cons, List.dropWhile_cons, hb x rfl]
  | cons x xs ih =>
    intro b ha hb
    have hx : p x = true := ha x (by simp)
    have hrec := ih b (fun c hc => ha c (by simp [hc])) hb
    simp [List.takeWhile_cons, List.dropWhile_cons, hx, hrec.1, hrec.2]

theorem parseRun_eq_some {p : Char → Bool} {s a b : List Char}
    (h : parseRun p s = some (a, b)) :
    s = a ++ b ∧ a ≠ [] ∧ (∀ c ∈ a, p c = true) ∧ (∀ c, b.head? = some c → p c = false) := by
  simp only [parseRun] at h
  by_cases he : s.takeWhile p = []
  · simp [he] at h
  · simp only [if_neg he, Option.some.injEq, Prod.mk.injEq] at h
    obtain ⟨ha, hb⟩ := h
    subst ha; subst hb
    refine ⟨(List.takeWhile_append_dropWhile p s).symm, he, ?_, ?_⟩
    · intro c hc; exact List.mem_takeWhile_imp hc
    · intro c hc; exact dropWhile_head_not s hc

theorem parseRun_complete {p : Char → Bool} {a b : List Char} (hne : a ≠ [])
    (ha : ∀ c ∈ a, p c = true) (hb : ∀ c, b.head? = some c → p c = false) :
    parseRun p (a ++ b) = some (a, b) := by
  obtain ⟨h1, h2⟩ := run_split a b ha hb
  simp [parseRun, h1, h2, hne]

theorem parseRun_spaceRun {w r : List Char} (hw : isSpaceRun w)
    (hr : ∀ c, r.head? = some c → pyIsSpace c = false) :
    parseRun pyIsSpace (w ++ r) = some (w, r) :=
  parseRun_complete hw.1 hw.2 hr

theorem parseRun_isSome_head {p : Char → Bool} {s : List Char} {c : Char}
    (hc : s.head? = some c) (hp : p c = true) :
    ∃ a b, parseRun p s = some (a, b) := by
  cases s with
  | nil => cases hc
  | cons x t =>
    simp only [List.head?_cons, Option.some.injEq] at hc
    subst hc
    exact ⟨x :: t.takeWhile p, t.dropWhile p, by
      simp [parseRun, List.takeWhile_cons, List.dropWhile_cons, hp]⟩

theorem head_append_mem {α : Type} {a b : List α} {c : α} (hne : a ≠ [])
    (h : (a ++ b).head? = some c) : c ∈ a := by
  cases a with
  | nil => exact absurd rfl hne
  | cons x t =>
    simp only [List.cons_append, List.head?_cons, Option.some.injEq] at h
    subst h; simp

end ParseStatement


namespace ParseStatement

theorem parseOptNeg_sound {s neg s1 : List Char} (h : parseOptNeg s = (neg, s1)) :
    s = neg ++ s1 ∧ (neg = [] ∨ neg = ['-']) := by
  cases s with
  | nil =>
    simp [parseOptNeg] at h
    obtain ⟨h1, h2⟩ := h
    subst h1; subst h2; simp
  | cons c t =>
    by_cases hc : c = '-'
    · subst hc
      simp [parseOptNeg] at h
      obtain ⟨h1, h2⟩ := h
      subst h1; subst h2; simp
    · simp [parseOptNeg, hc] at h
      obtain ⟨h1, h2⟩ := h
      subst h1; subst h2; simp

theorem parsePct_sound {s pct r : List Char} (h : parsePct s = some (pct, r)) :
    isPctTok pct ∧ s = pct ++ r := by
  rcases hpn : parseOptNeg s with ⟨neg, s1⟩
  obtain ⟨hs, hneg⟩ := parseOptNeg_sound hpn
  simp only [parsePct, hpn] at h
  cases hrun : parseRun Char.isDigit s1 with
  | none => simp only [hrun] at h; simp at h
  | some pr =>
    obtain ⟨ds, r1⟩ := pr
    simp only [hrun] at h
    obtain ⟨hs1, hds_ne, hds_all, _⟩ := parseRun_eq_some hrun
    cases r1 with
    | nil => dsimp only at h; simp at h
    | cons c r2 =>
      dsimp only at h
      by_cases hc : c = '%'
      · rw [if_pos hc] at h
        subst hc
        injection h with h2
        injection h2 with h3 h4
        subst h3; subst h4
        refine ⟨⟨neg, ds, hneg, ⟨hds_ne, hds_all⟩, rfl⟩, ?_⟩
        subst hs1
        subst hs
        simp
      · rw [if_neg hc] at h
        simp at h

theorem parsePct_complete {pct : List Char} (hp : isPctTok pct) (r : List Char) :
    parsePct (pct ++ r) = some (pct, r) := by
  obtain ⟨neg, ds, hneg, ⟨hne, hall⟩, rfl⟩ := hp
  obtain ⟨d0, ds', rfl⟩ : ∃ d0 ds', ds = d0 :: ds' := by
    cases ds with
    | nil => exact absurd rfl hne
    | cons a b => exact ⟨a, b, rfl⟩
  have hd0 : d0.isDigit = true := hall d0 (by simp)
  have hrun : parseRun Char.isDigit (d0 :: (ds' ++ '%' :: r)) = some (d0 :: ds', '%' :: r) := by
    have := parseRun_complete (p := Char.isDigit) (a := d0 :: ds') (b := '%' :: r) hne hall
      (by intro c hc; simp only [List.head?_cons, Option.some.injEq] at hc; subst hc; decide)
    simpa using this
  rcases hneg with rfl | rfl
  · have hpn : parseOptNeg (d0 :: (ds' ++ '%' :: r)) = ([], d0 :: (ds' ++ '%' :: r)) := by
      simp [parseOptNeg, digit_ne_dash hd0]
    simp [parsePct, hpn, hrun]
  · have hpn : parseOptNeg ('-' :: (d0 :: (ds' ++ '%' :: r))) = (['-'], d0 :: (ds' ++ '%' :: r)) := by
      simp [parseOptNeg]
    simp [parsePct, hpn, hrun]

theorem pct_head_not_space {pct : List Char} (hp : isPctTok pct) (r : List Char) :
    ∀ c, (pct ++ r).head? = some c → pyIsSpace c = false := by
  obtain ⟨neg, ds, hneg, ⟨hne, hall⟩, rfl⟩ := hp
  intro c hc
  rcases hneg with rfl | rfl
  · obtain ⟨d0, ds', rfl⟩ : ∃ d0 ds', ds = d0 :: ds' := by
      cases ds with
      | nil => exact absurd rfl hne
      | cons a b => exact ⟨a, b, rfl⟩
    simp only [List.nil_append, List.cons_append, List.append_assoc, List.head?_cons,
      Option.some.injEq] at hc
    subst hc
    exact digit_not_space (hall _ (by simp))
  · simp only [List.cons_append, List.append_assoc, List.head?_cons, Option.some.injEq] at hc
    subst hc
    decide

theorem parseAmtTok_sound {s amt r : List Char} (h : parseAmtTok s = some (amt, r)) :
    isAmtTok amt ∧ s = amt ++ r := by
  rcases hpn : parseOptNeg s with ⟨neg, s1⟩
  obtain ⟨hs, hneg⟩ := parseOptNeg_sound hpn
  simp only [parseAmtTok, hpn, Option.map_eq_some'] at h
  obtain ⟨⟨ds, r1⟩, hrun, heq⟩ := h
  injection heq with h3 h4
  subst h3; subst h4
  obtain ⟨hs1, hds_ne, hds_all, _⟩ := parseRun_eq_some hrun
  refine ⟨⟨neg, ds, hneg, hds_ne, hds_all, rfl⟩, ?_⟩
  subst hs1; subst hs
  simp

theorem parseAmtTok_complete {amt r : List Char} (ha : isAmtTok amt)
    (hr : ∀ c, r.head? = some c → isAmtChar c = false) :
    parseAmtTok (amt ++ r) = some (amt, r) := by
  obtain ⟨neg, ds, hneg, hne, hall, rfl⟩ := ha
  obtain ⟨d0, ds', rfl⟩ : ∃ d0 ds', ds = d0 :: ds' := by
    cases ds with
    | nil => exact absurd rfl hne
    | cons a b => exact ⟨a, b, rfl⟩
  have hd0 : isAmtChar d0 = true := hall d0 (by simp)
  have hrun : parseRun isAmtChar (d0 :: (ds' ++ r)) = some (d0 :: ds', r) := by
    have := parseRun_complete (p := isAmtChar) (a := d0 :: ds') (b := r) hne hall hr
    simpa using this
  rcases hneg with rfl | rfl
  · have hpn : parseOptNeg (d0 :: (ds' ++ r)) = ([], d0 :: (ds' ++ r)) := by
      simp [parseOptNeg, amtChar_ne_dash hd0]
    simp [parseAmtTok, hpn, hrun]
  · have hpn : parseOptNeg ('-' :: (d0 :: (ds' ++ r))) = (['-'], d0 :: (ds' ++ r)) := by
      simp [parseOptNeg]
    simp [parseAmtTok, hpn, hrun]

theorem parseAmtTok_isSome {amt : List Char} (ha : isAmtTok amt) (r : List Char) :
    ∃ v r2, parseAmtTok (amt ++ r) = some (v, r2) := by
  obtain ⟨neg, ds, hneg, hne, hall, rfl⟩ := ha
  obtain ⟨d0, ds', rfl⟩ : ∃ d0 ds', ds = d0 :: ds' := by
    cases ds with
    | nil => exact absurd rfl hne
    | cons a b => exact ⟨a, b, rfl⟩
  have hd0 : isAmtChar d0 = true := hall d0 (by simp)
  rcases hneg with rfl | rfl
  · have hpn : parseOptNeg (d0 :: (ds' ++ r)) = ([], d0 :: (ds' ++ r)) := by
      simp [parseOptNeg, amtChar_ne_dash hd0]
    obtain ⟨a, b, hab⟩ :=
      parseRun_isSome_head (p := isAmtChar) (s := d0 :: (ds' ++ r)) (c := d0) rfl hd0
    exact ⟨a, b, by simp [parseAmtTok, hpn, hab]⟩
  · have hpn : parseOptNeg ('-' :: (d0 :: (ds' ++ r))) = (['-'], d0 :: (ds' ++ r)) := by
      simp [parseOptNeg]
    obtain ⟨a, b, hab⟩ :=
      parseRun_isSome_head (p := isAmtChar) (s := d0 :: (ds' ++ r)) (c := d0) rfl hd0
    exact ⟨'-' :: a, b, by simp [parseAmtTok, hpn, hab]⟩

theorem parseDollar_sound {s r : List Char} (h : parseDollar s = some r) : s = '$' :: r := by
  cases s with
  | nil => simp [parseDollar] at h
  | cons c t =>
    by_cases hc : c = '$'
    · subst hc
      simp [parseDollar] at h
      subst h
      rfl
    · simp [parseDollar, hc] at h

theorem parseDollar_cons (r : List Char) : parseDollar ('$' :: r) = some r := by
  simp [parseDollar]

end ParseStatement

namespace ParseStatement

theorem parseAfterDesc_sound {s pct amt tot : List Char}
    (h : parseAfterDesc s = some (pct, amt, tot)) :
    ∃ w2 w3 w4 rest,
      s = w2 ++ pct ++ w3 ++ '$' :: (amt ++ w4 ++ '$' :: (tot ++ rest)) ∧
      isSpaceRun w2 ∧ isPctTok pct ∧ isSpaceRun w3 ∧ isAmtTok amt ∧ isSpaceRun w4 ∧
      isAmtTok tot := by
  simp only [parseAfterDesc, Option.bind_eq_some, Option.map_eq_some'] at h
  obtain ⟨⟨w2, s1⟩, hw2, ⟨pctc, s2⟩, hpct, ⟨w3, s3⟩, hw3, s4, hd1, ⟨amtc, s5⟩, hamt,
    ⟨w4, s6⟩, hw4, s7, hd2, ⟨totc, s8⟩, htot, heq⟩ := h
  dsimp only at hpct hw3 hd1 hamt hw4 hd2 htot heq
  injection heq with e1 e2
  injection e2 with e2a e2b
  subst e1; subst e2a; subst e2b
  obtain ⟨hs_eq, hw2ne, hw2all, _⟩ := parseRun_eq_some hw2
  obtain ⟨hpcttok, hs1⟩ := parsePct_sound hpct
  obtain ⟨hs2, hw3ne, hw3all, _⟩ := parseRun_eq_some hw3
  have hs3 := parseDollar_sound hd1
  obtain ⟨hamttok, hs4⟩ := parseAmtTok_sound hamt
  obtain ⟨hs5, hw4ne, hw4all, _⟩ := parseRun_eq_some hw4
  have hs6 := parseDollar_sound hd2
  obtain ⟨htottok, hs7⟩ := parseAmtTok_sound htot
  refine ⟨w2, w3, w4, s8, ?_, ⟨hw2ne, hw2all⟩, hpcttok, ⟨hw3ne, hw3all⟩, hamttok,
    ⟨hw4ne, hw4all⟩, htottok⟩
  subst hs7; subst hs6; subst hs5; subst hs4; subst hs3; subst hs2; subst hs1; subst hs_eq
  simp [List.append_assoc]

theorem parseAfterDesc_complete {w2 pct w3 amt w4 tot rest : List Char}
    (hw2 : isSpaceRun w2) (hpct : isPctTok pct) (hw3 : isSpaceRun w3) (hamt : isAmtTok amt)
    (hw4 : isSpaceRun w4) (htot : isAmtTok tot) :
    parseAfterDesc (w2 ++ (pct ++ (w3 ++ '$' :: (amt ++ (w4 ++ '$' :: (tot ++ rest)))))) ≠ none := by
  have h1 : parseRun pyIsSpace
      (w2 ++ (pct ++ (w3 ++ '$' :: (amt ++ (w4 ++ '$' :: (tot ++ rest)))))) =
      some (w2, pct ++ (w3 ++ '$' :: (amt ++ (w4 ++ '$' :: (tot ++ rest))))) :=
    parseRun_spaceRun hw2 (pct_head_not_space hpct _)
  have h2 : parsePct (pct ++ (w3 ++ '$' :: (amt ++ (w4 ++ '$' :: (tot ++ rest))))) =
      some (pct, w3 ++ '$' :: (amt ++ (w4 ++ '$' :: (tot ++ rest)))) :=
    parsePct_complete hpct _
  have h3 : parseRun pyIsSpace (w3 ++ '$' :: (amt ++ (w4 ++ '$' :: (tot ++ rest)))) =
      some (w3, '$' :: (amt ++ (w4 ++ '$' :: (tot ++ rest)))) :=
    parseRun_spaceRun hw3 (by
      intro c hc
      simp only [List.head?_cons, Option.some.injEq] at hc
      subst hc; decide)
  have h4 := parseDollar_cons (amt ++ (w4 ++ '$' :: (tot ++ rest)))
  have h5 : parseAmtTok (amt ++ (w4 ++ '$' :: (tot ++ rest))) =
      some (amt, w4 ++ '$' :: (tot ++ rest)) :=
    parseAmtTok_complete hamt (by
      intro c hc
      exact space_not_amtChar (hw4.2 c (head_append_mem hw4.1 hc)))
  have h6 : parseRun pyIsSpace (w4 ++ '$' :: (tot ++ rest)) = some (w4, '$' :: (tot ++ rest)) :=
    parseRun_spaceRun hw4 (by
      intro c hc
      simp only [List.head?_cons, Option.some.injEq] at hc
      subst hc; decide)
  have h7 := parseDollar_cons (tot ++ rest)
  obtain ⟨v, r2, h8⟩ := parseAmtTok_isSome htot rest
  simp [parseAfterDesc, h1, h2, h3, h4, h5, h6, h7, h8]

theorem findDesc_sound :
    ∀ (s acc desc pct amt tot : List Char), findDesc s acc = some (desc, pct, amt, tot) →
      ∃ n, 1 ≤ n ∧ n ≤ s.length ∧ desc = acc ++ s.take n ∧
        (∀ c ∈ s.take n, c ≠ '\n') ∧
        parseAfterDesc (s.drop n) = some (pct, amt, tot) ∧
        (∀ m, 1 ≤ m → m < n → parseAfterDesc (s.drop m) = none) := by
  intro s
  induction s with
  | nil => intro acc desc pct amt tot h; simp [findDesc] at h
  | cons c rest ih =>
    intro acc desc pct amt tot h
    simp only [findDesc] at h
    by_cases hc : c = '\n'
    · rw [if_pos hc] at h; simp at h
    · rw [if_neg hc] at h
      cases hpa : parseAfterDesc rest with
      | some r =>
        obtain ⟨p1, p2, p3⟩ := r
        rw [hpa] at h
        dsimp only at h
        injection h with h2
        injection h2 with e1 e2
        injection e2 with e2a e2b
        injection e2b with e3a e3b
        subst e1; subst e2a; subst e3a; subst e3b
        refine ⟨1, Nat.le_refl 1, by simp, by simp, ?_, by simp [hpa], ?_⟩
        · intro c2 hc2
          simp only [List.take_succ_cons, List.take_zero, List.mem_singleton] at hc2
          subst hc2; exact hc
        · intro m hm1 hm2; omega
      | none =>
        rw [hpa] at h
        dsimp only at h
        obtain ⟨n, hn1, hnlen, hdesc, hclean, hpad, hmin⟩ := ih (acc ++ [c]) desc pct amt tot h
        refine ⟨n + 1, by omega, by simpa using hnlen, ?_, ?_, by simpa using hpad, ?_⟩
        · rw [hdesc]; simp
        · intro c2 hc2
          simp only [List.take_succ_cons, List.mem_cons] at hc2
          rcases hc2 with rfl | hc2
          · exact hc
          · exact hclean c2 hc2
        · intro m hm1 hm2
          cases m with
          | zero => omega
          | succ m' =>
            cases m' with
            | zero => simpa using hpa
            | succ m2 =>
              have := hmin (m2 + 1) (by omega) (by omega)
              simpa using this

theorem findDesc_complete :
    ∀ (s acc : List Char) (n : Nat), 1 ≤ n → n ≤ s.length →
      (∀ c ∈ s.take n, c ≠ '\n') → parseAfterDesc (s.drop n) ≠ none →
      findDesc s acc ≠ none := by
  intro s
  induction s with
  | nil =>
    intro acc n h1 h2 _ _
    simp at h2
    omega
  | cons c rest ih =>
    intro acc n h1 h2 hclean hpa
    obtain ⟨n', rfl⟩ : ∃ n', n = n' + 1 := ⟨n - 1, by omega⟩
    have hcnl : c ≠ '\n' := hclean c (by simp [List.take_succ_cons])
    simp only [findDesc, if_neg hcnl]
    cases hpa2 : parseAfterDesc rest with
    | some r =>
      obtain ⟨p1, p2, p3⟩ := r
      simp
    | none =>
      cases n' with
      | zero =>
        exact absurd hpa2 (by simpa using hpa)
      | succ n2 =>
        exact ih (acc ++ [c]) (n2 + 1) (by omega) (by simpa using h2)
          (by
            intro c2 hc2
            exact hclean c2 (by simp only [List.take_succ_cons, List.mem_cons]; right; exact hc2))
          (by simpa using hpa)

theorem searchDescFrom_sound :
    ∀ (j : Nat) (s desc pct amt tot : List Char),
      searchDescFrom j s = some (desc, pct, amt, tot) →
      ∃ i, 1 ≤ i ∧ i ≤ j ∧ findDesc (s.drop i) [] = some (desc, pct, amt, tot) := by
  intro j
  induction j with
  | zero => intro s d p a t h; simp [searchDescFrom] at h
  | succ j' ih =>
    intro s d p a t h
    simp only [searchDescFrom] at h
    cases hf : findDesc (s.drop (j' + 1)) [] with
    | some r =>
      rw [hf] at h
      dsimp only at h
      injection h with h2
      subst h2
      exact ⟨j' + 1, by omega, Nat.le_refl _, hf⟩
    | none =>
      rw [hf] at h
      dsimp only at h
      obtain ⟨i, hi1, hi2, hi3⟩ := ih s d p a t h
      exact ⟨i, hi1, by omega, hi3⟩

theorem searchDescFrom_complete :
    ∀ (j i : Nat) (s : List Char), 1 ≤ i → i ≤ j → findDesc (s.drop i) [] ≠ none →
      searchDescFrom j s ≠ none := by
  intro j
  induction j with
  | zero => intro i s h1 h2 _; omega
  | succ j' ih =>
    intro i s h1 h2 hf
    simp only [searchDescFrom]
    cases hf2 : findDesc (s.drop (j' + 1)) [] with
    | some r => simp
    | none =>
      have hij : i ≤ j' := by
        rcases Nat.lt_or_ge i (j' + 1) with hlt | hge
        · omega
        · exfalso
          have : i = j' + 1 := by omega
          subst this
          exact hf hf2
      exact ih i s h1 hij hf

end ParseStatement

namespace ParseStatement

theorem parseDate_sound {s d rest : List Char} (h : parseDate s = some (d, rest)) :
    s = d ++ rest ∧ isDateTok d := by
  rcases s with _ | ⟨m1, s⟩
  · simp [parseDate] at h
  rcases s with _ | ⟨m2, s⟩
  · simp [parseDate] at h
  rcases s with _ | ⟨c1, s⟩
  · simp [parseDate] at h
  rcases s with _ | ⟨d1, s⟩
  · simp [parseDate] at h
  rcases s with _ | ⟨d2, s⟩
  · simp [parseDate] at h
  rcases s with _ | ⟨c2, s⟩
  · simp [parseDate] at h
  rcases s with _ | ⟨y1, s⟩
  · simp [parseDate] at h
  rcases s with _ | ⟨y2, s⟩
  · simp [parseDate] at h
  rcases s with _ | ⟨y3, s⟩
  · simp [parseDate] at h
  rcases s with _ | ⟨y4, tail⟩
  · simp [parseDate] at h
  simp only [parseDate] at h
  split at h
  case isTrue hcond =>
    obtain ⟨h1, h2, h3, h4, h5, h6, h7, h8, h9, h10⟩ := hcond
    subst h3; subst h6
    injection h with h11
    injection h11 with h12 h13
    subst h12; subst h13
    exact ⟨by simp, m1, m2, d1, d2, y1, y2, y3, y4, rfl, h1, h2, h4, h5, h7, h8, h9, h10⟩
  case isFalse => simp at h

theorem parseDate_complete {d : List Char} (hd : isDateTok d) (rest : List Char) :
    parseDate (d ++ rest) = some (d, rest) := by
  obtain ⟨m1, m2, d1, d2, y1, y2, y3, y4, rfl, h1, h2, h3, h4, h5, h6, h7, h8⟩ := hd
  have hcond : m1.isDigit = true ∧ m2.isDigit = true ∧ ('/' : Char) = '/' ∧ d1.isDigit = true ∧
      d2.isDigit = true ∧ ('/' : Char) = '/' ∧ y1.isDigit = true ∧ y2.isDigit = true ∧
      y3.isDigit = true ∧ y4.isDigit = true :=
    ⟨h1, h2, rfl, h3, h4, rfl, h5, h6, h7, h8⟩
  simp only [List.cons_append, List.nil_append]
  simp [parseDate, h1, h2, h3, h4, h5, h6, h7, h8]

theorem take_takeWhile_pred {p : Char → Bool} {l : List Char} {i : Nat}
    (hi : i ≤ (l.takeWhile p).length) : ∀ c ∈ l.take i, p c = true := by
  intro c hc
  have h1 : l.take i = (l.takeWhile p).take i := by
    conv_lhs => rw [← List.takeWhile_append_dropWhile (p := p) (l := l)]
    rw [List.take_append_eq_append_take]
    have h0 : i - (l.takeWhile p).length = 0 := by omega
    rw [h0]
    simp
  rw [h1] at hc
  exact List.mem_takeWhile_imp (List.take_subset _ _ hc)

theorem takeWhile_length_ge {p : Char → Bool} :
    ∀ (a b : List Char), (∀ c ∈ a, p c = true) → a.length ≤ ((a ++ b).takeWhile p).length := by
  intro a
  induction a with
  | nil => intro b _; simp
  | cons x xs ih =>
    intro b ha
    have hx : p x = true := ha x (by simp)
    rw [List.cons_append, List.takeWhile_cons, if_pos hx]
    simpa using ih b (fun c hc => ha c (by simp [hc]))

theorem patternMatch_spec {line : List Char} {t : Transaction}
    (h : patternMatch line = some t) :
    ∃ d w1 s, line = d ++ w1 ++ s ∧ t.date = d ∧ isDateTok d ∧ isSpaceRun w1 ∧
      SuffixMatchWithDesc s t.description ∧
      (∀ desc2, SuffixMatchWithDesc s desc2 → t.description.length ≤ desc2.length) ∧
      isPctTok t.cashback_percentage ∧ isAmtTok t.cashback_amount ∧ isAmtTok t.total := by
  simp only [patternMatch] at h
  cases hpd : parseDate line with
  | none => rw [hpd] at h; simp at h
  | some pr =>
    obtain ⟨d, rest⟩ := pr
    rw [hpd] at h
    dsimp only at h
    by_cases hj : (rest.takeWhile pyIsSpace).length = 0
    · rw [if_pos hj] at h; simp at h
    · rw [if_neg hj] at h
      cases hsd : searchDescFrom (rest.takeWhile pyIsSpace).length rest with
      | none => rw [hsd] at h; simp at h
      | some q =>
        obtain ⟨desc, pct, amt, tot⟩ := q
        rw [hsd] at h
        dsimp only at h
        injection h with ht
        subst ht
        obtain ⟨hds, hdate⟩ := parseDate_sound hpd
        obtain ⟨i, hi1, hij, hfd⟩ := searchDescFrom_sound _ _ _ _ _ _ hsd
        obtain ⟨n, hn1, hnlen, hdesc, hclean, hpad, hmin⟩ := findDesc_sound _ _ _ _ _ _ hfd
        simp only [List.nil_append] at hdesc
        obtain ⟨w2, w3, w4, rest2, hsplit, hw2, hpct, hw3, hamt, hw4, htot⟩ :=
          parseAfterDesc_sound hpad
        have hjlen : (rest.takeWhile pyIsSpace).length ≤ rest.length :=
          (List.takeWhile_sublist pyIsSpace).length_le
        have hdlen : desc.length = n := by rw [hdesc]; exact List.length_take_of_le hnlen
        refine ⟨d, rest.take i, rest.drop i, ?_, rfl, hdate, ?_, ?_, ?_, hpct, hamt, htot⟩
        · rw [List.append_assoc, List.take_append_drop]; exact hds
        · constructor
          · have hlen : (rest.take i).length = i := List.length_take_of_le (by omega)
            intro hnil; rw [hnil] at hlen; simp at hlen; omega
          · exact take_takeWhile_pred (by omega)
        · refine ⟨w2, pct, w3, amt, w4, tot, rest2, ?_, ?_, hw2, hpct, hw3, hamt, hw4, htot⟩
          · conv_lhs => rw [← List.take_append_drop n (rest.drop i)]
            rw [← hdesc, hsplit]
            simp [List.append_assoc]
          · show isDescTok desc
            constructor
            · intro hnil
              rw [hnil] at hdlen
              simp at hdlen
              omega
            · intro c hc; exact hclean c (hdesc ▸ hc)
        · intro desc2 hsm
          obtain ⟨w2b, pctb, w3b, amtb, w4b, totb, restb, hsplitb, hdescb, hw2b, hpctb,
            hw3b, hamtb, hw4b, htotb⟩ := hsm
          show desc.length ≤ desc2.length
          have hlen2 : 1 ≤ desc2.length := List.length_pos.mpr hdescb.1
          by_contra hlt
          push_neg at hlt
          have hassoc : desc2 ++ w2b ++ pctb ++ w3b ++ '$' :: (amtb ++ w4b ++ '$' :: (totb ++ restb)) =
              desc2 ++ (w2b ++ (pctb ++ (w3b ++ '$' :: (amtb ++ (w4b ++ '$' :: (totb ++ restb)))))) := by
            simp [List.append_assoc]
          have hdrop : (rest.drop i).drop desc2.length =
              w2b ++ (pctb ++ (w3b ++ '$' :: (amtb ++ (w4b ++ '$' :: (totb ++ restb))))) := by
            rw [hsplitb, hassoc]
            exact List.drop_left desc2 _
          have hnone := hmin desc2.length hlen2 (by omega)
          rw [hdrop] at hnone
          exact parseAfterDesc_complete hw2b hpctb hw3b hamtb hw4b htotb hnone

theorem patternMatch_complete {line desc : List Char} (h : GrammarMatchWithDesc line desc) :
    patternMatch line ≠ none := by
  obtain ⟨d, w1, s, rfl, hdate, hw1, hsm⟩ := h
  obtain ⟨w2, pct, w3, amt, w4, tot, rest, hseq, hdesc, hw2, hpct, hw3, hamt, hw4, htot⟩ := hsm
  rw [List.append_assoc]
  have hpd : parseDate (d ++ (w1 ++ s)) = some (d, w1 ++ s) := parseDate_complete hdate (w1 ++ s)
  simp only [patternMatch, hpd]
  have hw1len : 1 ≤ w1.length := List.length_pos.mpr hw1.1
  have hjge : w1.length ≤ ((w1 ++ s).takeWhile pyIsSpace).length :=
    takeWhile_length_ge w1 s hw1.2
  have hjne : ¬ ((w1 ++ s).takeWhile pyIsSpace).length = 0 := by omega
  rw [if_neg hjne]
  have hdropi : (w1 ++ s).drop w1.length = s := List.drop_left w1 s
  have hfd : findDesc ((w1 ++ s).drop w1.length) [] ≠ none := by
    rw [hdropi]
    refine findDesc_complete s [] desc.length (List.length_pos.mpr hdesc.1) ?_ ?_ ?_
    · rw [hseq]
      simp only [List.append_assoc, List.length_append, List.length_cons]
      omega
    · intro c hc
      rw [hseq] at hc
      simp only [List.append_assoc] at hc
      rw [List.take_left] at hc
      exact hdesc.2 c hc
    · rw [hseq]
      simp only [List.append_assoc]
      rw [List.drop_left]
      exact parseAfterDesc_complete hw2 hpct hw3 hamt hw4 htot
  have hsd : searchDescFrom ((w1 ++ s).takeWhile pyIsSpace).length (w1 ++ s) ≠ none :=
    searchDescFrom_complete _ w1.length _ hw1len hjge hfd
  cases hq : searchDescFrom ((w1 ++ s).takeWhile pyIsSpace).length (w1 ++ s) with
  | none => exact absurd hq hsd
  | some q =>
    obtain ⟨a, b, c, e⟩ := q
    simp [hq]

theorem grammarWithDesc_of_patternMatch {line : List Char} {t : Transaction}
    (h : patternMatch line = some t) : GrammarMatchWithDesc line t.description := by
  obtain ⟨d, w1, s, h1, _, hdate, hw1, hsm, _, _, _, _⟩ := patternMatch_spec h
  exact ⟨d, w1, s, h1, hdate, hw1, hsm⟩

theorem patternMatch_grammar_iff (line : List Char) :
    (∃ t, patternMatch line = some t) ↔ GrammarMatch line := by
  constructor
  · rintro ⟨t, ht⟩
    exact ⟨t.description, grammarWithDesc_of_patternMatch ht⟩
  · rintro ⟨desc, hg⟩
    have hne := patternMatch_complete hg
    cases hpm : patternMatch line with
    | none => exact absurd hpm hne
    | some t => exact ⟨t, rfl⟩

end ParseStatement

namespace ParseStatement

theorem splitOnChar_sepFree {sep : Char} : ∀ (a : List Char), sep ∉ a → splitOnChar sep a = [a] := by
  intro a
  induction a with
  | nil => intro _; simp [splitOnChar]
  | cons c t ih =>
    intro h
    have hc : ¬ c = sep := by intro he; exact h (by simp [he])
    have ht : sep ∉ t := fun hm => h (by simp [hm])
    simp [splitOnChar, hc, ih ht]

theorem splitOnChar_append {sep : Char} : ∀ (a b : List Char), sep ∉ a →
    splitOnChar sep (a ++ sep :: b) = a :: splitOnChar sep b := by
  intro a
  induction a with
  | nil => intro b _; simp [splitOnChar]
  | cons c t ih =>
    intro b h
    have hc : ¬ c = sep := by intro he; exact h (by simp [he])
    have ht : sep ∉ t := fun hm => h (by simp [hm])
    simp [splitOnChar, hc, ih b ht]

theorem two_digit_no_slash {a b : Char} (ha : a.isDigit = true) (hb : b.isDigit = true) :
    ('/' : Char) ∉ ([a, b] : List Char) := by
  intro hmem
  simp at hmem
  rcases hmem with he | he
  · exact digit_ne_slash ha he.symm
  · exact digit_ne_slash hb he.symm

theorem four_digit_no_slash {a b c d : Char} (ha : a.isDigit = true) (hb : b.isDigit = true)
    (hc : c.isDigit = true) (hd : d.isDigit = true) :
    ('/' : Char) ∉ ([a, b, c, d] : List Char) := by
  intro hmem
  simp at hmem
  rcases hmem with he | he | he | he
  · exact digit_ne_slash ha he.symm
  · exact digit_ne_slash hb he.symm
  · exact digit_ne_slash hc he.symm
  · exact digit_ne_slash hd he.symm

theorem splitOnChar_date {m1 m2 d1 d2 y1 y2 y3 y4 : Char}
    (h1 : m1.isDigit = true) (h2 : m2.isDigit = true) (h3 : d1.isDigit = true)
    (h4 : d2.isDigit = true) (h5 : y1.isDigit = true) (h6 : y2.isDigit = true)
    (h7 : y3.isDigit = true) (h8 : y4.isDigit = true) :
    splitOnChar '/' [m1, m2, '/', d1, d2, '/', y1, y2, y3, y4] =
      [[m1, m2], [d1, d2], [y1, y2, y3, y4]] := by
  have e1 : ([m1, m2, '/', d1, d2, '/', y1, y2, y3, y4] : List Char) =
      [m1, m2] ++ '/' :: ([d1, d2] ++ '/' :: [y1, y2, y3, y4]) := by simp
  rw [e1, splitOnChar_append _ _ (two_digit_no_slash h1 h2),
    splitOnChar_append _ _ (two_digit_no_slash h3 h4),
    splitOnChar_sepFree _ (four_digit_no_slash h5 h6 h7 h8)]

theorem convert_date_shape {m1 m2 d1 d2 y1 y2 y3 y4 : Char}
    (h1 : m1.isDigit = true) (h2 : m2.isDigit = true) (h3 : d1.isDigit = true)
    (h4 : d2.isDigit = true) (h5 : y1.isDigit = true) (h6 : y2.isDigit = true)
    (h7 : y3.isDigit = true) (h8 : y4.isDigit = true) :
    convert_date_to_iso [m1, m2, '/', d1, d2, '/', y1, y2, y3, y4] =
      some [y1, y2, y3, y4, '-', m1, m2, '-', d1, d2] := by
  simp [convert_date_to_iso, splitOnChar_date h1 h2 h3 h4 h5 h6 h7 h8]

theorem convert_dateTok {d : List Char} (hd : isDateTok d) :
    (splitOnChar '/' d).length = 3 ∧ ∃ iso, convert_date_to_iso d = some iso := by
  obtain ⟨m1, m2, d1, d2, y1, y2, y3, y4, rfl, h1, h2, h3, h4, h5, h6, h7, h8⟩ := hd
  refine ⟨by rw [splitOnChar_date h1 h2 h3 h4 h5 h6 h7 h8]; rfl,
    [y1, y2, y3, y4, '-', m1, m2, '-', d1, d2],
    convert_date_shape h1 h2 h3 h4 h5 h6 h7 h8⟩

theorem convert_of_patternMatch {line : List Char} {t : Transaction}
    (h : patternMatch line = some t) :
    (splitOnChar '/' t.date).length = 3 ∧ ∃ iso, convert_date_to_iso t.date = some iso := by
  obtain ⟨d, w1, s, _, hdate_eq, hdate, _, _, _, _, _, _⟩ := patternMatch_spec h
  rw [hdate_eq]
  exact convert_dateTok hdate

theorem mem_stripChars {s : List Char} {c : Char} (h : c ∈ stripChars s) : c ∈ s := by
  simp only [stripChars] at h
  rw [List.mem_reverse] at h
  have h2 : c ∈ (s.dropWhile pyIsSpace).reverse := (List.dropWhile_sublist _).subset h
  rw [List.mem_reverse] at h2
  exact (List.dropWhile_sublist _).subset h2

theorem processLine_matched (ts : List Transaction) {line : List Char} {t : Transaction}
    (h : patternMatch line = some t) :
    ∃ iso, convert_date_to_iso t.date = some iso ∧
      processLine (some ts) line = some (ts ++ [{ t with date := iso }]) := by
  obtain ⟨-, iso, hiso⟩ := convert_of_patternMatch h
  exact ⟨iso, hiso, by simp [processLine, h, hiso]⟩

theorem processLine_unmatched {ts : List Transaction} {line : List Char}
    (h : patternMatch line = none) : processLine (some ts) line = some ts := by
  simp [processLine, h]

theorem foldl_processLine_total :
    ∀ (lines : List (List Char)) (ts : List Transaction),
      ∃ ts2, lines.foldl processLine (some ts) = some ts2 := by
  intro lines
  induction lines with
  | nil => intro ts; exact ⟨ts, rfl⟩
  | cons l ls ih =>
    intro ts
    cases hm : patternMatch l with
    | none =>
      rw [List.foldl_cons, processLine_unmatched hm]
      exact ih ts
    | some t =>
      obtain ⟨iso, _, hpl⟩ := processLine_matched ts hm
      rw [List.foldl_cons, hpl]
      exact ih _

theorem parse_billing_data_total (data : List Char) :
    ∃ ts, parse_billing_data data = some ts :=
  foldl_processLine_total _ []

theorem parse_billing_data_single {data : List Char} {t : Transaction}
    (hnl : ('\n' : Char) ∉ data) (h : patternMatch (stripChars data) = some t) :
    ∃ iso, convert_date_to_iso t.date = some iso ∧
      parse_billing_data data = some [{ t with date := iso }] := by
  have hnl2 : ('\n' : Char) ∉ stripChars data := fun hm => hnl (mem_stripChars hm)
  have hsplit : splitOnChar '\n' (stripChars data) = [stripChars data] :=
    splitOnChar_sepFree _ hnl2
  obtain ⟨iso, hiso, hpl⟩ := processLine_matched [] h
  refine ⟨iso, hiso, ?_⟩
  rw [parse_billing_data, hsplit, List.foldl_cons, hpl, List.foldl_nil]
  simp

theorem parse_multiple_files_pair {fs : String → Option (List Char)} {a b : String}
    {ca cb : List Char} {la lb : List Transaction}
    (hfa : fs a = some ca) (hfb : fs b = some cb)
    (hla : parse_billing_data ca = some la) (hlb : parse_billing_data cb = some lb) :
    parse_multiple_files fs [a, b] = Except.ok (la ++ lb) := by
  simp [parse_multiple_files, read_file, hfa, hfb, hla, hlb]

theorem parse_multiple_files_err {fs : String → Option (List Char)} :
    ∀ (pre : List String) (p : String) (post : List String),
      (∀ q ∈ pre, ∃ c, fs q = some c) → fs p = none →
      parse_multiple_files fs (pre ++ p :: post) = Except.error (PyErr.ioError p) := by
  intro pre
  induction pre with
  | nil =>
    intro p post _ hp
    simp [parse_multiple_files, read_file, hp]
  | cons q pre' ih =>
    intro p post hpre hp
    obtain ⟨c, hc⟩ := hpre q (by simp)
    obtain ⟨ts, hts⟩ := parse_billing_data_total c
    have hrec := ih p post (fun r hr => hpre r (by simp [hr])) hp
    simp [parse_multiple_files, read_file, hc, hts, hrec]

theorem parseArgsGo_collect :
    ∀ (ps acc : List String), (∀ s ∈ ps, optionLike s = false) → acc ≠ [] ∨ ps ≠ [] →
      parseArgsGo ps none (some acc) false = Except.ok (acc ++ ps) := by
  intro ps
  induction ps with
  | nil =>
    intro acc _ hne
    rcases hne with hne | hne
    · simp [parseArgsGo, hne]
    · exact absurd rfl hne
  | cons a ps' ih =>
    intro acc hall hne
    have ha : optionLike a = false := hall a (by simp)
    simp only [parseArgsGo, ha, Bool.false_eq_true, if_false]
    rw [ih (acc ++ [a]) (fun s hs => hall s (by simp [hs])) (Or.inl (by simp))]
    simp

end ParseStatement

namespace ParseStatement

theorem not_grammar_of_patternMatch_none {line : List Char} (h : patternMatch line = none) :
    ¬ GrammarMatch line := by
  intro hg
  obtain ⟨t, ht⟩ := (patternMatch_grammar_iff line).mpr hg
  rw [h] at ht
  exact Option.noConfusion ht

/-- C1: for every single input line that matches the fixed grammar, `extract`
(`parse_billing_data`) produces exactly one record whose field strings equal
the substrings captured by the grammar, with the date normalized; in
particular, on the line "04/07/2021 COFFEE SHOP 5% $1.25 $25.00" it returns
exactly one record with date "2021-04-07", description "COFFEE SHOP",
cashback_percentage "5%", cashback_amount "1.25", and total "25.00". -/
theorem C1_single_line_record :
    (∀ (data : List Char) (t : Transaction), ('\n' : Char) ∉ data →
      patternMatch (stripChars data) = some t →
      ∃ iso, convert_date_to_iso t.date = some iso ∧
        parse_billing_data data = some [{ t with date := iso }]) ∧
    parse_billing_data ("04/07/2021 COFFEE SHOP 5% $1.25 $25.00".toList) =
      some [⟨"2021-04-07".toList, "COFFEE SHOP".toList, "5%".toList, "1.25".toList,
        "25.00".toList⟩] :=
  ⟨fun _ _ hnl h => parse_billing_data_single hnl h, by decide⟩

/-- Witness for C1 at the concrete line of the specification scenario. -/
theorem C1_single_line_record_witness :
    ∃ iso, convert_date_to_iso ("04/07/2021".toList) = some iso ∧
      parse_billing_data ("04/07/2021 COFFEE SHOP 5% $1.25 $25.00".toList) =
        some [{ (⟨"04/07/2021".toList, "COFFEE SHOP".toList, "5%".toList, "1.25".toList,
          "25.00".toList⟩ : Transaction) with date := iso }] :=
  C1_single_line_record.1 ("04/07/2021 COFFEE SHOP 5% $1.25 $25.00".toList)
    ⟨"04/07/2021".toList, "COFFEE SHOP".toList, "5%".toList, "1.25".toList, "25.00".toList⟩
    (by decide) (by decide)

/-- C2: a Transaction Record is emitted for a line if and only if the line
matches the full fixed-order grammar contiguously from position 0 (anchored at
start, not at end — trailing text after a full match is allowed and is not
captured in any field, which is expressed by the arbitrary `rest` component of
the grammar decomposition). -/
theorem C2_record_iff_grammar (ts : List Transaction) (line : List Char) :
    (∃ r, processLine (some ts) line = some (ts ++ [r])) ↔ GrammarMatch line := by
  constructor
  · rintro ⟨r, hr⟩
    cases hm : patternMatch line with
    | none =>
      rw [processLine_unmatched hm] at hr
      injection hr with hr2
      have h2 : ts.length = ts.length + 1 := by simpa using congrArg List.length hr2
      omega
    | some t =>
      exact (patternMatch_grammar_iff line).mp ⟨t, hm⟩
  · intro hg
    obtain ⟨t, hm⟩ := (patternMatch_grammar_iff line).mpr hg
    obtain ⟨iso, _, hpl⟩ := processLine_matched ts hm
    exact ⟨{ t with date := iso }, hpl⟩

/-- C3: the aggregator (`parse_multiple_files`) on two readable files returns
exactly the concatenation of the extractions of the two file contents, in
order, with no interleaving, reordering, or deduplication. -/
theorem C3_aggregate_concat (fs : String → Option (List Char)) (a b : String)
    (ca cb : List Char) (la lb : List Transaction)
    (hfa : fs a = some ca) (hfb : fs b = some cb)
    (hla : parse_billing_data ca = some la) (hlb : parse_billing_data cb = some lb) :
    parse_multiple_files fs [a, b] = Except.ok (la ++ lb) :=
  parse_multiple_files_pair hfa hfb hla hlb

/-- Witness for C3 with two concrete one-line files. -/
theorem C3_aggregate_concat_witness :
    parse_multiple_files
      (fun p => if p = "a.txt" then some ("04/07/2021 COFFEE SHOP 5% $1.25 $25.00".toList)
        else if p = "b.txt" then some ("01/02/2021 LUNCH 2% $0.50 $10.00".toList) else none)
      ["a.txt", "b.txt"] =
    Except.ok
      [⟨"2021-04-07".toList, "COFFEE SHOP".toList, "5%".toList, "1.25".toList, "25.00".toList⟩,
       ⟨"2021-01-02".toList, "LUNCH".toList, "2%".toList, "0.50".toList, "10.00".toList⟩] :=
  C3_aggregate_concat _ "a.txt" "b.txt"
    ("04/07/2021 COFFEE SHOP 5% $1.25 $25.00".toList)
    ("01/02/2021 LUNCH 2% $0.50 $10.00".toList)
    [⟨"2021-04-07".toList, "COFFEE SHOP".toList, "5%".toList, "1.25".toList, "25.00".toList⟩]
    [⟨"2021-01-02".toList, "LUNCH".toList, "2%".toList, "0.50".toList, "10.00".toList⟩]
    (by decide) (by decide) (by decide) (by decide)

/-- C4: `normalize` (`convert_date_to_iso`) maps any date string of the shape
MM/DD/YYYY to YYYY-MM-DD by pure string splitting on '/' and reassembly as
year-month-day; in particular it maps "04/07/2021" to "2021-04-07".  Purity is
definitional in this embedding: the function is a mathematical function of its
argument. -/
theorem C4_normalize_shape :
    (∀ m1 m2 d1 d2 y1 y2 y3 y4 : Char, m1.isDigit = true → m2.isDigit = true →
      d1.isDigit = true → d2.isDigit = true → y1.isDigit = true → y2.isDigit = true →
      y3.isDigit = true → y4.isDigit = true →
      convert_date_to_iso [m1, m2, '/', d1, d2, '/', y1, y2, y3, y4] =
        some [y1, y2, y3, y4, '-', m1, m2, '-', d1, d2]) ∧
    convert_date_to_iso ("04/07/2021".toList) = some ("2021-04-07".toList) :=
  ⟨fun _ _ _ _ _ _ _ _ h1 h2 h3 h4 h5 h6 h7 h8 => convert_date_shape h1 h2 h3 h4 h5 h6 h7 h8,
   by decide⟩

/-- Witness for C4 at the concrete date 12/31/1999. -/
theorem C4_normalize_shape_witness :
    convert_date_to_iso ['1', '2', '/', '3', '1', '/', '1', '9', '9', '9'] =
      some ['1', '9', '9', '9', '-', '1', '2', '-', '3', '1'] :=
  C4_normalize_shape.1 '1' '2' '3' '1' '1' '9' '9' '9' (by decide) (by decide) (by decide)
    (by decide) (by decide) (by decide) (by decide) (by decide)

/-- C5: a line that does not match the grammar (missing token, blank line,
header line) contributes zero records and raises no exception — the loop step
returns the accumulator unchanged (`some ts`, never `none`). -/
theorem C5_nonmatching_line_skipped (ts : List Transaction) (line : List Char)
    (h : ¬ GrammarMatch line) : processLine (some ts) line = some ts := by
  cases hm : patternMatch line with
  | none => exact processLine_unmatched hm
  | some t => exact absurd ((patternMatch_grammar_iff line).mp ⟨t, hm⟩) h

/-- Witness for C5 on a line with a missing `$`, a blank line, and a header
line with no numeric tokens. -/
theorem C5_nonmatching_line_skipped_witness :
    processLine (some []) ("04/07/2021 COFFEE SHOP 5% 1.25 25.00".toList) = some [] ∧
    processLine (some []) [] = some [] ∧
    processLine (some []) ("Date Description Cashback Amount".toList) = some [] :=
  ⟨C5_nonmatching_line_skipped [] _ (not_grammar_of_patternMatch_none (by decide)),
   C5_nonmatching_line_skipped [] _ (not_grammar_of_patternMatch_none (by decide)),
   C5_nonmatching_line_skipped [] _ (not_grammar_of_patternMatch_none (by decide))⟩

/-- C6: when a path given to the aggregator is missing, the read error is
fatal for the whole run: the outcome is the I/O-error exit (non-zero status),
no records are printed, and the remaining paths (the arbitrary `post`) are
never read — the outcome does not depend on them. -/
theorem C6_read_error_fatal (fs : String → Option (List Char)) (argv : List String)
    (pre : List String) (p : String) (post : List String)
    (hargs : parseArgsModel argv = Except.ok (pre ++ p :: post))
    (hpre : ∀ q ∈ pre, ∃ c, fs q = some c) (hp : fs p = none) :
    mainModel fs argv = RunOutcome.ioErrorOut p ∧
    printedRecords (mainModel fs argv) = [] ∧ runExitCode (mainModel fs argv) ≠ 0 := by
  have herr := parse_multiple_files_err pre p post hpre hp
  have hmain : mainModel fs argv = RunOutcome.ioErrorOut p := by
    simp [mainModel, hargs, herr]
  exact ⟨hmain, by rw [hmain]; simp [printedRecords], by rw [hmain]; simp [runExitCode]⟩

/-- Witness for C6: one good file followed by a missing one. -/
theorem C6_read_error_fatal_witness :
    mainModel
      (fun p => if p = "good.txt" then some ("04/07/2021 COFFEE SHOP 5% $1.25 $25.00".toList)
        else none)
      ["-f", "good.txt", "missing.txt"] = RunOutcome.ioErrorOut "missing.txt" ∧
    printedRecords (mainModel
      (fun p => if p = "good.txt" then some ("04/07/2021 COFFEE SHOP 5% $1.25 $25.00".toList)
        else none)
      ["-f", "good.txt", "missing.txt"]) = [] ∧
    runExitCode (mainModel
      (fun p => if p = "good.txt" then some ("04/07/2021 COFFEE SHOP 5% $1.25 $25.00".toList)
        else none)
      ["-f", "good.txt", "missing.txt"]) ≠ 0 :=
  C6_read_error_fatal _ ["-f", "good.txt", "missing.txt"] ["good.txt"] "missing.txt" []
    (by decide)
    (fun q hq => by
      simp at hq
      subst hq
      exact ⟨"04/07/2021 COFFEE SHOP 5% $1.25 $25.00".toList, by decide⟩)
    (by decide)

end ParseStatement

namespace ParseStatement

/-- C7 counterexample: the claim as stated quantifies over every malformed
date string, but on a string whose split on '/' does not yield exactly three
pieces — such as "abc" — the unpacking in `convert_date_to_iso` raises a
`ValueError` (modelled as `none`) instead of reassembling the input. -/
theorem C7_cex_malformed_raises : convert_date_to_iso ("abc".toList) = none := by decide

/-- C7 (amended): `convert_date_to_iso` performs no validation beyond the
tuple unpacking: every string that splits on '/' into exactly three pieces —
however malformed or calendar-invalid the pieces are, e.g. month "13" — is
reassembled verbatim into the new positional format and never raises. -/
theorem C7_no_validation_two_slashes (m d y : List Char)
    (hm : ('/' : Char) ∉ m) (hd : ('/' : Char) ∉ d) (hy : ('/' : Char) ∉ y) :
    convert_date_to_iso (m ++ '/' :: (d ++ '/' :: y)) = some (y ++ '-' :: (m ++ '-' :: d)) := by
  simp [convert_date_to_iso, splitOnChar_append _ _ hm, splitOnChar_append _ _ hd,
    splitOnChar_sepFree _ hy]

/-- Witness for the amended C7 at the calendar-invalid date 13/45/0000. -/
theorem C7_no_validation_two_slashes_witness :
    convert_date_to_iso ("13".toList ++ '/' :: ("45".toList ++ '/' :: "0000".toList)) =
      some ("0000".toList ++ '-' :: ("13".toList ++ '-' :: "45".toList)) :=
  C7_no_validation_two_slashes ("13".toList) ("45".toList) ("0000".toList)
    (by decide) (by decide) (by decide)

/-- C8 counterexample: the CLI of `parse_statement.py` does not accept a bare
positional file path — its argparse configuration has only the required
`-f`/`--files` option and no positional argument, so `parse_args` reports the
required option as missing and exits with status 2. -/
theorem C8_cex_positional_rejected :
    parseArgsModel ["statement.txt"] =
      Except.error "the following arguments are required: -f/--files" := by decide

/-- C8 (amended): the CLI accepts the repeated `-f`/`--files` option taking
one or more paths (a bare positional path is rejected, see the
counterexample), and when invoked with no arguments it exits with a non-zero
status and a usage message, having performed no work (nothing printed). -/
theorem C8_cli_files_option (fs : String → Option (List Char)) (ps : List String)
    (hne : ps ≠ []) (hall : ∀ s ∈ ps, optionLike s = false) :
    parseArgsModel ("-f" :: ps) = Except.ok ps ∧
    parseArgsModel ("--files" :: ps) = Except.ok ps ∧
    mainModel fs [] = RunOutcome.usageError ∧
    runExitCode (mainModel fs []) ≠ 0 ∧ printedRecords (mainModel fs []) = [] := by
  have hcollect := parseArgsGo_collect ps [] hall (Or.inr hne)
  refine ⟨?_, ?_, rfl, ?_, rfl⟩
  · have hstep : parseArgsModel ("-f" :: ps) = parseArgsGo ps none (some []) false := rfl
    rw [hstep, hcollect]
    simp
  · have hstep : parseArgsModel ("--files" :: ps) = parseArgsGo ps none (some []) false := rfl
    rw [hstep, hcollect]
    simp
  · show (2 : Nat) ≠ 0
    decide

/-- Witness for the amended C8 with a single path. -/
theorem C8_cli_files_option_witness :
    parseArgsModel ["-f", "a.txt"] = Except.ok ["a.txt"] ∧
    parseArgsModel ["--files", "a.txt"] = Except.ok ["a.txt"] ∧
    mainModel (fun _ => none) [] = RunOutcome.usageError ∧
    runExitCode (mainModel (fun _ => none) []) ≠ 0 ∧
    printedRecords (mainModel (fun _ => none) []) = [] :=
  C8_cli_files_option (fun _ => none) ["a.txt"] (by decide)
    (fun s hs => by
      simp at hs
      subst hs
      decide)

/-- C9 counterexample: on the line "01/02/2021   5% $1 $2 8% $3 $4" the
captured description is "5% $1 $2" (length 8), although the grammar also
admits a decomposition of the same line whose description is the single space
" " (length 1): the lazy description is not the globally shortest run that
lets the rest of the line match — it is only the shortest for the whitespace
split committed by the greedy `\s+` before it. -/
theorem C9_cex_not_globally_shortest :
    ∃ t, patternMatch ("01/02/2021   5% $1 $2 8% $3 $4".toList) = some t ∧
      GrammarMatchWithDesc ("01/02/2021   5% $1 $2 8% $3 $4".toList) (" ".toList) ∧
      (" ".toList : List Char).length < t.description.length := by
  refine ⟨⟨"01/02/2021".toList, "5% $1 $2".toList, "8%".toList, "3".toList, "4".toList⟩,
    by decide, ?_, by decide⟩
  refine ⟨"01/02/2021".toList, " ".toList, "  5% $1 $2 8% $3 $4".toList, by decide,
    ⟨'0', '1', '0', '2', '2', '0', '2', '1', by decide, by decide, by decide, by decide,
      by decide, by decide, by decide, by decide, by decide⟩,
    ⟨by decide, by decide⟩, ?_⟩
  refine ⟨" ".toList, "5%".toList, " ".toList, "1".toList, " ".toList, "2".toList,
    " 8% $3 $4".toList, by decide, ⟨by decide, by decide⟩, ⟨by decide, by decide⟩,
    ⟨[], ['5'], Or.inl rfl, ⟨by decide, by decide⟩, by decide⟩,
    ⟨by decide, by decide⟩,
    ⟨[], ['1'], Or.inl rfl, by decide, by decide, by decide⟩,
    ⟨by decide, by decide⟩,
    ⟨[], ['2'], Or.inl rfl, by decide, by decide, by decide⟩⟩

/-- C9 (amended): for every matching line the captured fields have exactly the
token shapes DATE, PCT and AMOUNT, and the description is the shortest
(non-greedy) run that is followed by mandatory whitespace and lets the rest of
the line match — minimality holding relative to the whitespace split chosen by
the engine (the greedy `\s+` after the date, which commits the largest
feasible run before the lazy description is explored). -/
theorem C9_description_minimal_for_chosen_split (line : List Char) (t : Transaction)
    (h : patternMatch line = some t) :
    isDateTok t.date ∧ isPctTok t.cashback_percentage ∧ isAmtTok t.cashback_amount ∧
    isAmtTok t.total ∧
    ∃ d w1 s, line = d ++ w1 ++ s ∧ t.date = d ∧ isDateTok d ∧ isSpaceRun w1 ∧
      SuffixMatchWithDesc s t.description ∧
      ∀ desc2, SuffixMatchWithDesc s desc2 → t.description.length ≤ desc2.length := by
  obtain ⟨d, w1, s, h1, h2, h3, h4, h5, h6, h7, h8, h9⟩ := patternMatch_spec h
  refine ⟨?_, h7, h8, h9, d, w1, s, h1, h2, h3, h4, h5, h6⟩
  rw [h2]
  exact h3

/-- Witness for the amended C9 at the specification's concrete line. -/
theorem C9_description_minimal_for_chosen_split_witness :
    isDateTok ("04/07/2021".toList) ∧ isPctTok ("5%".toList) ∧ isAmtTok ("1.25".toList) ∧
    isAmtTok ("25.00".toList) ∧
    ∃ d w1 s, ("04/07/2021 COFFEE SHOP 5% $1.25 $25.00".toList) = d ++ w1 ++ s ∧
      ("04/07/2021".toList) = d ∧ isDateTok d ∧ isSpaceRun w1 ∧
      SuffixMatchWithDesc s ("COFFEE SHOP".toList) ∧
      ∀ desc2, SuffixMatchWithDesc s desc2 → ("COFFEE SHOP".toList).length ≤ desc2.length :=
  C9_description_minimal_for_chosen_split ("04/07/2021 COFFEE SHOP 5% $1.25 $25.00".toList)
    ⟨"04/07/2021".toList, "COFFEE SHOP".toList, "5%".toList, "1.25".toList, "25.00".toList⟩
    (by decide)

/-- C10: inside `parse_billing_data` the call to `convert_date_to_iso` can
never fail: for every line matched by the pattern the captured date group
splits on '/' into exactly three components, so the three-way unpacking
succeeds; consequently `extract` is total — it returns a transaction list (no
exception, modelled as `some`) on every input text. -/
theorem C10_convert_total_on_matches :
    (∀ (line : List Char) (t : Transaction), patternMatch line = some t →
      (splitOnChar '/' t.date).length = 3 ∧ ∃ iso, convert_date_to_iso t.date = some iso) ∧
    (∀ data : List Char, ∃ ts, parse_billing_data data = some ts) :=
  ⟨fun _ _ h => convert_of_patternMatch h, parse_billing_data_total⟩

/-- Witness for C10 at a concrete matched line and a concrete two-line text. -/
theorem C10_convert_total_on_matches_witness :
    ((splitOnChar '/' ("04/07/2021".toList)).length = 3 ∧
      ∃ iso, convert_date_to_iso ("04/07/2021".toList) = some iso) ∧
    ∃ ts, parse_billing_data
      ("04/07/2021 COFFEE SHOP 5% $1.25 $25.00\nnot a transaction line".toList) = some ts :=
  ⟨C10_convert_total_on_matches.1 ("04/07/2021 COFFEE SHOP 5% $1.25 $25.00".toList)
      ⟨"04/07/2021".toList, "COFFEE SHOP".toList, "5%".toList, "1.25".toList, "25.00".toList⟩
      (by decide),
   C10_convert_total_on_matches.2
     ("04/07/2021 COFFEE SHOP 5% $1.25 $25.00\nnot a transaction line".toList)⟩

end ParseStatement
